import Mathlib

/-!
Shallow embedding of the core of the `ai-framework` repository
(`knowledge.ts`: the self-organizing knowledge tree; `agent.ts` / `tools.ts`:
the oracle gateway), together with theorems settling claims about the
natural-language specification of the repository.

Ids are modelled as `Int` (TypeScript numbers; the routing protocol uses `-1`
as a sentinel).  JavaScript string `.length` is modelled by Lean's
`String.length`; the only size comparison that involves division
(`totalSize < maxDocumentSizeChars / 2`, float division in JS) is modelled
exactly by the integer inequality `2 * totalSize < maxDocumentSizeChars`.
The LLM oracle and the chat transport are external nondeterminism; they are
modelled as explicit parameters (a scripted `Oracle`, a scripted response
`client`), and theorems quantify over them.
-/

namespace AIF

/-! ## Node model (`knowledge.ts`) -/

/-- A child reference of a Heading: `{ id: number; short: string }`. -/
structure HeadingRef where
  id : Int
  short : String
deriving DecidableEq, Repr

/-- A `Document` node (`kind: "d"`). -/
structure Document where
  id : Int
  parentId : Option Int
  content : String
deriving DecidableEq, Repr

/-- A `Heading` node (`kind: "h"`). -/
structure Heading where
  id : Int
  parentId : Option Int
  refs : List HeadingRef
deriving DecidableEq, Repr

/-- The closed tagged union `Document | Heading | Empty`. -/
inductive Node where
  | d (doc : Document)
  | h (hd : Heading)
  | e (id : Int)
deriving DecidableEq, Repr

/-- The id of a node (`doc.id`). -/
def Node.nodeId : Node → Int
  | .d doc => doc.id
  | .h hd => hd.id
  | .e i => i

/-- The discriminator string, as in the TypeScript `kind` field. -/
def Node.kind : Node → String
  | .d _ => "d"
  | .h _ => "h"
  | .e _ => "e"

/-! ## In-memory storage (`InMemoryKnowledgeStorage`)

The JS `Record<number, Document | Heading | undefined>` is modelled as an
association list with at most one binding per key (all operations preserve
this). -/

/-- Key lookup in the backing record. -/
def lookupNode : List (Int × Node) → Int → Option Node
  | [], _ => none
  | (k, n) :: rest, i => if k = i then some n else lookupNode rest i

/-- Key insert/overwrite in the backing record. -/
def insertNode : List (Int × Node) → Int → Node → List (Int × Node)
  | [], i, n => [(i, n)]
  | (k, m) :: rest, i, n =>
    if k = i then (i, n) :: rest else (k, m) :: insertNode rest i n

/-- Key removal in the backing record (JS `delete storage[id]`). -/
def removeNode : List (Int × Node) → Int → List (Int × Node)
  | [], _ => []
  | (k, m) :: rest, i =>
    if k = i then removeNode rest i else (k, m) :: removeNode rest i

/-- `class InMemoryKnowledgeStorage`: a record of nodes plus the
monotone id counter (`private id: number = 1`). -/
structure InMemoryKnowledgeStorage where
  storage : List (Int × Node)
  id : Int
deriving DecidableEq, Repr

namespace InMemoryKnowledgeStorage

/-- `generateId()`: returns the counter and increments it. -/
def generateId (s : InMemoryKnowledgeStorage) : Int × InMemoryKnowledgeStorage :=
  (s.id, { s with id := s.id + 1 })

/-- `get(id)`: the stored node, or an Empty-tagged node when absent. -/
def get (s : InMemoryKnowledgeStorage) (i : Int) : Node :=
  match lookupNode s.storage i with
  | some n => n
  | none => .e i

/-- `set(doc)`: upsert; setting an Empty node deletes. -/
def set (s : InMemoryKnowledgeStorage) (n : Node) : InMemoryKnowledgeStorage :=
  match n with
  | .e i => { s with storage := removeNode s.storage i }
  | n => { s with storage := insertNode s.storage n.nodeId n }

/-- `getMany(ids)`: item-wise `get`, in input order. -/
def getMany (s : InMemoryKnowledgeStorage) (ids : List Int) : List Node :=
  ids.map s.get

/-- `setMany(docs)`: item-wise `set`. -/
def setMany (s : InMemoryKnowledgeStorage) (docs : List Node) : InMemoryKnowledgeStorage :=
  docs.foldl set s

end InMemoryKnowledgeStorage

/-- The storage the Knowledge constructor builds when none is supplied:
`new InMemoryKnowledgeStorage({})`, counter starting at `1`. -/
def engineInitStorage : InMemoryKnowledgeStorage := ⟨[], 1⟩

/-- Consistency of a store: every binding keys a non-Empty node under its own
id, and every key is below the id counter.  Holds for every store the engine
builds (the backing record cannot hold Empty, engine writes key nodes by
their `id` field, and ids come from the allocator). -/
def WF (s : InMemoryKnowledgeStorage) : Prop :=
  ∀ p ∈ s.storage, p.2.nodeId = p.1 ∧ p.1 < s.id ∧ p.2.kind ≠ "e"

/-! ## Allocator trace semantics (for the id-freshness claim) -/

/-- A storage-level operation: allocate an id, upsert/delete a node, or a
batched upsert (a `set` of an Empty node is a deletion). -/
inductive StorageOp where
  | genId
  | setNode (n : Node)
  | setManyNodes (ns : List Node)
deriving Repr

/-- A store together with the list of ids `generateId` has issued so far. -/
structure AllocTrace where
  store : InMemoryKnowledgeStorage
  issued : List Int
deriving DecidableEq, Repr

/-- One storage operation. -/
def stepOp (t : AllocTrace) : StorageOp → AllocTrace
  | .genId =>
    let (i, s') := t.store.generateId
    ⟨s', t.issued ++ [i]⟩
  | .setNode n => ⟨t.store.set n, t.issued⟩
  | .setManyNodes ns => ⟨t.store.setMany ns, t.issued⟩

/-- Run a list of storage operations. -/
def runOps (t : AllocTrace) (ops : List StorageOp) : AllocTrace :=
  ops.foldl stepOp t

/-- Invariant of the allocator trace: issued ids are positive, strictly
increasing, and below the counter. -/
def AllocInv (t : AllocTrace) : Prop :=
  List.Pairwise (· < ·) t.issued ∧ (∀ i ∈ t.issued, 0 < i ∧ i < t.store.id) ∧
    1 ≤ t.store.id

/-! ## The knowledge tree engine (`Knowledge` in `knowledge.ts`) -/

/-- `const ROOT_DOC_ID = 0`. -/
def ROOT_DOC_ID : Int := 0

/-- The engine configuration fields the algorithms read
(`k`, `maxDocumentSizeChars`; transport fields are irrelevant here). -/
structure KnowledgeConfig where
  k : Nat
  maxDocumentSizeChars : Nat
deriving DecidableEq, Repr

/-- The external LLM oracle, as the engine observes it: one deterministic
answer per tool round.  `selectDocument` is indexed by the routing round
number within one engine call; the other fields answer the bootstrap, edit,
split and merge rounds as functions of the data sent to the oracle. -/
structure Oracle where
  createRoot : String → String
  selectDocument : Nat → Int
  updateDocument : String → String → String × String
  splitDocument : String → List (String × String)
  mergeDocuments : List String → String × String

/-- Result of `Knowledge.find`: the Document, NotFound (`undefined`), or
loop fuel exhausted (the source's `while (true)` may diverge on a cyclic
oracle; no claim concerns that case). -/
inductive FindOutcome where
  | found (doc : Document)
  | notFound
  | fuelOut
deriving DecidableEq, Repr

/-- The `find` loop, instrumented with the list of ids passed to
`storage.get`, in order.  Mirrors `Knowledge.find`: check `docId === -1`
first, then fetch; Empty → NotFound, Document → found, Heading → one
`selectDocument` routing round and continue. -/
def findLoop (s : InMemoryKnowledgeStorage) (o : Oracle) :
    Nat → Int → Nat → List Int × FindOutcome
  | _, _, 0 => ([], .fuelOut)
  | round, docId, fuel + 1 =>
    if docId = -1 then ([], .notFound)
    else
      match s.get docId with
      | .e _ => ([docId], .notFound)
      | .d doc => ([docId], .found doc)
      | .h _ =>
        let rest := findLoop s o (round + 1) (o.selectDocument round) fuel
        (docId :: rest.1, rest.2)

/-- `Knowledge.find(query)`: the loop started at `ROOT_DOC_ID`. -/
def find (s : InMemoryKnowledgeStorage) (o : Oracle) (fuel : Nat) :
    List Int × FindOutcome :=
  findLoop s o 0 ROOT_DOC_ID fuel

/-- Result of `Knowledge._findLeaf`. -/
inductive LeafOutcome where
  | ok (doc : Document) (parent : Option Heading)
  | err (msg : String)
  | fuelOut
deriving DecidableEq, Repr

/-- `Knowledge._findLeaf`, returning the number of routing rounds issued and
the outcome.  Document → done (with the last Heading as parent); Empty →
throw (`"The model has selected a non-existent document."`); Heading → one
`selectDocument` routing round and continue. -/
def findLeaf (s : InMemoryKnowledgeStorage) (o : Oracle) :
    Nat → Int → Option Heading → Nat → Nat × LeafOutcome
  | round, _, _, 0 => (round, .fuelOut)
  | round, docId, parent, fuel + 1 =>
    match s.get docId with
    | .d doc => (round, .ok doc parent)
    | .e _ => (round, .err "The model has selected a non-existent document.")
    | .h hd => findLeaf s o (round + 1) (o.selectDocument round) (some hd) fuel

/-- The kinds of oracle rounds `update` can issue. -/
inductive RoundKind where
  | bootstrap
  | route
  | edit
  | split
  | merge
deriving DecidableEq, Repr

/-- Result of `Knowledge.update`: the returned short description and the
final store, a thrown error, or loop fuel exhausted. -/
inductive UpdateOutcome where
  | ok (shortDescription : String) (store : InMemoryKnowledgeStorage)
  | err (msg : String)
  | fuelOut
deriving DecidableEq, Repr

/-- The final store of a normal `update` return, if any. -/
def UpdateOutcome.storeQ : UpdateOutcome → Option InMemoryKnowledgeStorage
  | .ok _ st => some st
  | _ => none

/-- The short description of a normal `update` return, if any. -/
def UpdateOutcome.shortQ : UpdateOutcome → Option String
  | .ok sd _ => some sd
  | _ => none

/-- One iteration of the `for (const newDoc of arg)` loop of the
`splitDocument` handler: allocate a fresh id, accumulate the child ref and
the new child Document (parented to the original node's id). -/
def splitStep (docToUpdate : Document)
    (acc : InMemoryKnowledgeStorage × List HeadingRef × List Node)
    (p : String × String) :
    InMemoryKnowledgeStorage × List HeadingRef × List Node :=
  let (newId, st) := acc.1.generateId
  (st, acc.2.1 ++ [⟨newId, p.2⟩],
    acc.2.2 ++ [Node.d ⟨newId, some docToUpdate.id, p.1⟩])

/-- The `splitDocument` tool handler: allocate ids and build the child
Documents, then `setMany` the children followed by the Heading that
overwrites the original node's id in place (same `parentId`). -/
def splitHandler (s : InMemoryKnowledgeStorage) (docToUpdate : Document)
    (parts : List (String × String)) : InMemoryKnowledgeStorage :=
  let acc := parts.foldl (splitStep docToUpdate) (s, [], [])
  acc.1.setMany (acc.2.2 ++ [Node.h ⟨docToUpdate.id, docToUpdate.parentId, acc.2.1⟩])

/-- The child refs a split builds: consecutive fresh ids from `startId`,
paired with the oracle's short descriptions. -/
def splitRefs (startId : Int) : List (String × String) → List HeadingRef
  | [] => []
  | p :: rest => ⟨startId, p.2⟩ :: splitRefs (startId + 1) rest

/-- The child Documents a split persists: consecutive fresh ids from
`startId`, contents from the oracle, all parented to `pid`. -/
def splitDocs (startId : Int) (pid : Int) : List (String × String) → List Node
  | [] => []
  | p :: rest => Node.d ⟨startId, some pid, p.1⟩ :: splitDocs (startId + 1) pid rest

/-- The `mergeDocuments` tool handler: overwrite the parent Heading's id in
place with the merged Document, then update the grandparent's matching child
ref.  The source guards the grandparent step with
`if (parentHeading.parentId)`: in JavaScript the id `0` is falsy, so a ROOT
grandparent is skipped exactly like an absent one. -/
def mergeHandler (s : InMemoryKnowledgeStorage) (parentHeading : Heading)
    (content shortDescription : String) : InMemoryKnowledgeStorage :=
  let s1 := s.set (.d ⟨parentHeading.id, parentHeading.parentId, content⟩)
  match parentHeading.parentId with
  | none => s1
  | some gpId =>
    if gpId = 0 then s1
    else
      match s1.get gpId with
      | .h grandParent =>
        s1.set (.h { grandParent with
          refs := grandParent.refs.map fun r =>
            if r.id = parentHeading.id then { r with short := shortDescription }
            else r })
      | _ => s1

/-- The sibling nodes the merge check fetches: `getMany` of the parent
Heading's child ref ids. -/
def siblingsOf (s : InMemoryKnowledgeStorage) (ph : Heading) : List Node :=
  s.getMany (ph.refs.map HeadingRef.id)

/-- The merge check's size sum: Document children contribute their content
length, anything else contributes zero (`siblings.reduce`; Heading children
count as zero and grandchildren are not visited). -/
def siblingsTotalSize (s : InMemoryKnowledgeStorage) (ph : Heading) : Nat :=
  (siblingsOf s ph).foldl
    (fun acc sb => match sb with | .d d => acc + d.content.length | _ => acc) 0

/-- The sibling contents sent to the merge oracle round
(`s.kind === "d" ? s.content : ""`). -/
def siblingContents (s : InMemoryKnowledgeStorage) (ph : Heading) : List String :=
  (siblingsOf s ph).map fun sb => match sb with | .d d => d.content | _ => ""

/-- Phase C step 1 of `update`: re-fetch the edited Document and split it
when its content length strictly exceeds `maxDocumentSizeChars`. -/
def splitPhase (cfg : KnowledgeConfig) (o : Oracle) (docToUpdate : Document)
    (s1 : InMemoryKnowledgeStorage) : List RoundKind × InMemoryKnowledgeStorage :=
  match s1.get docToUpdate.id with
  | .d updatedDoc =>
    if updatedDoc.content.length > cfg.maxDocumentSizeChars then
      ([.split], splitHandler s1 docToUpdate (o.splitDocument updatedDoc.content))
    else ([], s1)
  | _ => ([], s1)

/-- Phase C step 2 of `update`: if the edited Document had a parent Heading
and the sibling size sum is strictly below `maxDocumentSizeChars / 2`
(JS float division, modelled exactly as `2 * totalSize < maxDocumentSizeChars`),
issue the merge round. -/
def mergePhase (cfg : KnowledgeConfig) (o : Oracle) (parent : Option Heading)
    (s2 : InMemoryKnowledgeStorage) : List RoundKind × InMemoryKnowledgeStorage :=
  match parent with
  | none => ([], s2)
  | some ph =>
    if 2 * siblingsTotalSize s2 ph < cfg.maxDocumentSizeChars then
      let merged := o.mergeDocuments (siblingContents s2 ph)
      ([.merge], mergeHandler s2 ph merged.1 merged.2)
    else ([], s2)

/-- `Knowledge.update(query)`: bootstrap when ROOT is absent; otherwise
locate a leaf, edit it in place, then run the split and merge rebalance
phases.  Returns the list of oracle rounds issued and the outcome. -/
def update (cfg : KnowledgeConfig) (s0 : InMemoryKnowledgeStorage) (o : Oracle)
    (query : String) (fuel : Nat) : List RoundKind × UpdateOutcome :=
  match s0.get ROOT_DOC_ID with
  | .e _ =>
    ([.bootstrap], .ok "Initialized the knowledge base"
      (s0.set (.d ⟨ROOT_DOC_ID, none, o.createRoot query⟩)))
  | _ =>
    match findLeaf s0 o 0 ROOT_DOC_ID none fuel with
    | (r, .fuelOut) => (List.replicate r .route, .fuelOut)
    | (r, .err msg) => (List.replicate r .route, .err msg)
    | (r, .ok docToUpdate parentHeading) =>
      let edited := o.updateDocument docToUpdate.content query
      let s1 := s0.set (.d { docToUpdate with content := edited.1 })
      let sp := splitPhase cfg o docToUpdate s1
      let mp := mergePhase cfg o parentHeading sp.2
      (List.replicate r .route ++ [.edit] ++ sp.1 ++ mp.1, .ok edited.2 mp.2)

/-- The default configuration (`DEFAULT_K = 4`,
`DEFAULT_MAX_DOCUMENT_SIZE_CHARS = 100000`). -/
def defaultConfig : KnowledgeConfig := ⟨4, 100000⟩

/-- A scripted oracle used by concrete runs; scenario oracles override the
relevant fields. -/
def baseOracle : Oracle where
  createRoot := fun q => "R:" ++ q
  selectDocument := fun _ => 0
  updateDocument := fun c q => (c ++ q, "upd")
  splitDocument := fun _ => []
  mergeDocuments := fun _ => ("m", "ms")

/-! ## Oracle gateway (`agent.ts`, `tools.ts`)

The OpenAI chat response shapes are modelled with the fields
`Agent._verifyAndCallHandlers` reads.  A tool's JSON parse plus zod schema
validation (`_transformTool`) is a single `parseArg : String → Except String α`;
its user handler is `run : α → Option String` (`some` an error when the
handler throws).  Error strings keep the source's prefixes but omit the
`JSON.stringify` payloads.  The scripted `client` maps the index of the
chat-completion call within one `respond` invocation to the model's
response. -/

/-- A function-typed tool call (`toolCall.function`). -/
structure ToolCallFn where
  name : String
  arguments : String
deriving DecidableEq, Repr

/-- A tool call: `type: "function"` or any other type (`custom`). -/
inductive ToolCall where
  | function (fn : ToolCallFn)
  | custom (name : String)
deriving DecidableEq, Repr

/-- The message of a chat choice (`tool_calls` may be absent). -/
structure Message where
  tool_calls : Option (List ToolCall)
deriving DecidableEq, Repr

/-- A chat choice. -/
structure Choice where
  message : Message
deriving DecidableEq, Repr

/-- A chat-completion response. -/
structure Response where
  choices : List Choice
deriving DecidableEq, Repr

/-- A named tool as `_transformTool` produces it: argument
parsing/validation, and the user handler. -/
structure ToolSpec (α : Type) where
  parseArg : String → Except String α
  run : α → Option String

/-- Tool lookup by name (`handlers[toolCall.function.name]`). -/
def lookupTool {α : Type} : List (String × ToolSpec α) → String → Option (ToolSpec α)
  | [], _ => none
  | (k, t) :: rest, nm => if k = nm then some t else lookupTool rest nm

/-- The JS object write `results[name] = msg`. -/
def upsert : List (String × String) → String → String → List (String × String)
  | [], k, v => [(k, v)]
  | (k0, v0) :: rest, k, v =>
    if k0 = k then (k, v) :: rest else (k0, v0) :: upsert rest k v

/-- The `for (const toolCall of toolCalls)` loop of
`_verifyAndCallHandlers`, instrumented with the list of user-handler
invocations (`fired`): the pairs `(name, arg)` with which a user handler
actually ran, necessarily schema-valid by construction. -/
def processCalls {α : Type} (tools : List (String × ToolSpec α)) :
    List ToolCall → List (String × α) → List (String × String) →
    List (String × α) × List (String × String)
  | [], fired, results => (fired, results)
  | tc :: rest, fired, results =>
    match tc with
    | .custom nm =>
      processCalls tools rest fired
        (upsert results nm "The tool call is not of type function")
    | .function fn =>
      match lookupTool tools fn.name with
      | none =>
        processCalls tools rest fired
          (upsert results fn.name "The model has called an unknown tool")
      | some t =>
        match t.parseArg fn.arguments with
        | .error e => processCalls tools rest fired (upsert results fn.name e)
        | .ok a =>
          match t.run a with
          | some e =>
            processCalls tools rest (fired ++ [(fn.name, a)])
              (upsert results fn.name e)
          | none => processCalls tools rest (fired ++ [(fn.name, a)]) results

/-- `Agent._verifyAndCallHandlers`: returns the fired-handler log and
`none` for success (`true` in the source) or `some` error text. -/
def verifyAndCallHandlers {α : Type} (tools : List (String × ToolSpec α))
    (response : Response) : List (String × α) × Option String :=
  match response.choices with
  | [] => ([], some "The model did not produce anything")
  | choice :: _ =>
    match choice.message.tool_calls with
    | none => ([], some "The model did not produce any tool calls")
    | some toolCalls =>
      let pr := processCalls tools toolCalls [] []
      let errors := pr.2.map fun p => p.1 ++ ": " ++ p.2
      match errors with
      | [] => (pr.1, none)
      | e :: es => (pr.1, some (String.intercalate "\n\t" (e :: es)))

/-- `ResolutionStrategy` of `agent.ts`. -/
inductive ResolutionStrategy where
  | ignore
  | throw
  | retryAll (maxRetries : Nat)
deriving DecidableEq, Repr

/-- Observable outcome of `Agent.respond`: number of chat-completion calls
issued, the accumulated fired-handler log, the response whose verification
succeeded (when one did), and normal return vs. thrown error. -/
structure RespondOut (α : Type) where
  calls : Nat
  fired : List (String × α)
  accepted : Option Response
  result : Except String Unit
deriving Repr

/-- The `while (true)` retry loop of `Agent.respond` under `retryAll`.
`remaining = maxRetries - retryCount`; the source continues while
`retryCount + 1 <= maxRetries` after a failed retry, i.e. while
`remaining > 0`. -/
def respondRetryLoop {α : Type} (client : Nat → Response)
    (tools : List (String × ToolSpec α)) :
    Nat → Nat → Nat → List (String × α) → RespondOut α
  | 0, callIdx, callsSoFar, firedSoFar =>
    let response := client callIdx
    let vr := verifyAndCallHandlers tools response
    match vr.2 with
    | none => ⟨callsSoFar + 1, firedSoFar ++ vr.1, some response, .ok ()⟩
    | some msg =>
      ⟨callsSoFar + 1, firedSoFar ++ vr.1, none,
        .error ("[Retry over] Errors during agent response:\n\t" ++ msg)⟩
  | rem + 1, callIdx, callsSoFar, firedSoFar =>
    let response := client callIdx
    let vr := verifyAndCallHandlers tools response
    match vr.2 with
    | none => ⟨callsSoFar + 1, firedSoFar ++ vr.1, some response, .ok ()⟩
    | some _ =>
      respondRetryLoop client tools rem (callIdx + 1) (callsSoFar + 1)
        (firedSoFar ++ vr.1)

/-- `Agent.respond`: one chat call, verification, then resolution per the
configured strategy (`undefined` and `ignore` log and return; `throw`
raises; `retryAll` re-issues the whole round). -/
def respond {α : Type} (strategy : Option ResolutionStrategy)
    (client : Nat → Response) (tools : List (String × ToolSpec α)) :
    RespondOut α :=
  let response := client 0
  let vr := verifyAndCallHandlers tools response
  match vr.2 with
  | none => ⟨1, vr.1, some response, .ok ()⟩
  | some msg =>
    match strategy with
    | none => ⟨1, vr.1, none, .ok ()⟩
    | some .ignore => ⟨1, vr.1, none, .ok ()⟩
    | some .throw =>
      ⟨1, vr.1, none, .error ("Errors during agent response:\n\t" ++ msg)⟩
    | some (.retryAll maxRetries) =>
      respondRetryLoop client tools maxRetries 1 1 vr.1

/-- The tool calls of a response's first choice, if any (what
`_verifyAndCallHandlers` iterates over). -/
def firstToolCalls (resp : Response) : Option (List ToolCall) :=
  match resp.choices with
  | [] => none
  | ch :: _ => ch.message.tool_calls

/-! ## Concrete scenario data for witnesses and counterexamples -/

/-- A tool whose schema accepts any argument string and whose handler never
throws. -/
def toolSpecEcho : ToolSpec String where
  parseArg := fun s => .ok s
  run := fun _ => none

/-- A scripted model that never makes a tool call. -/
def clientNoCalls : Nat → Response := fun _ => ⟨[⟨⟨none⟩⟩]⟩

/-- A scripted model that always calls `selectDocument` with argument `7`. -/
def clientGood : Nat → Response :=
  fun _ => ⟨[⟨⟨some [.function ⟨"selectDocument", "7"⟩]⟩⟩]⟩

/-- Scenario store for the split claim: ROOT is a small Document. -/
def storeSplitW : InMemoryKnowledgeStorage := ⟨[(0, .d ⟨0, none, "hello"⟩)], 1⟩

/-- Scenario oracle for the split claim: the edit makes the document
8 characters long; the split partitions it in two. -/
def oracleSplitW : Oracle :=
  { baseOracle with
    updateDocument := fun _ _ => ("abcdefgh", "edited")
    splitDocument := fun _ => [("abcd", "s1"), ("efgh", "s2")] }

/-- Configuration with `maxDocumentSizeChars = 5`. -/
def cfgSplitW : KnowledgeConfig := ⟨2, 5⟩

/-- Scenario store for the merge claim: ROOT Heading over Heading 1 (two
small Documents 2, 3) and Document 4. -/
def storeMergeW : InMemoryKnowledgeStorage :=
  ⟨[(0, .h ⟨0, none, [⟨1, "a"⟩, ⟨4, "b"⟩]⟩),
    (1, .h ⟨1, some 0, [⟨2, "c"⟩, ⟨3, "d"⟩]⟩),
    (2, .d ⟨2, some 1, "aa"⟩),
    (3, .d ⟨3, some 1, "bb"⟩),
    (4, .d ⟨4, some 0, "zz"⟩)], 5⟩

/-- Scenario oracle for the merge claim: route to Document 2, edit keeps it
small, merge answers `"MERGED"` with summary `"NEWSHORT"`. -/
def oracleMergeW : Oracle :=
  { baseOracle with
    selectDocument := fun n => if n = 0 then 1 else 2
    updateDocument := fun _ _ => ("cc", "edited")
    mergeDocuments := fun _ => ("MERGED", "NEWSHORT") }

/-- Configuration with `maxDocumentSizeChars = 100`. -/
def cfgMergeW : KnowledgeConfig := ⟨4, 100⟩

/-- Scenario store for the taxonomy-violation claim: ROOT Heading whose only
ref points at the absent id 5. -/
def storeEmptyW : InMemoryKnowledgeStorage :=
  ⟨[(0, .h ⟨0, none, [⟨5, "x"⟩]⟩)], 6⟩

/-- Scenario oracle for the taxonomy-violation claim: always routes to the
absent id 5. -/
def oracleEmptyW : Oracle := { baseOracle with selectDocument := fun _ => 5 }

/-! # Theorems -/

/-! ## Storage lemmas -/

theorem lookupNode_insert_self (l : List (Int × Node)) (i : Int) (n : Node) :
    lookupNode (insertNode l i n) i = some n := by
  induction l with
  | nil => simp [insertNode, lookupNode]
  | cons p rest ih =>
    obtain ⟨k, m⟩ := p
    by_cases hk : k = i <;> simp [insertNode, lookupNode, hk, ih]

theorem lookupNode_insert_ne (l : List (Int × Node)) (i j : Int) (n : Node)
    (h : j ≠ i) : lookupNode (insertNode l i n) j = lookupNode l j := by
  have h' : i ≠ j := Ne.symm h
  induction l with
  | nil => simp [insertNode, lookupNode, h']
  | cons p rest ih =>
    obtain ⟨k, m⟩ := p
    by_cases hk : k = i
    · subst hk
      simp [insertNode, lookupNode, h']
    · by_cases hkj : k = j <;> simp [insertNode, lookupNode, hk, hkj, ih, h]

theorem lookupNode_remove_self (l : List (Int × Node)) (i : Int) :
    lookupNode (removeNode l i) i = none := by
  induction l with
  | nil => simp [removeNode, lookupNode]
  | cons p rest ih =>
    obtain ⟨k, m⟩ := p
    by_cases hk : k = i <;> simp [removeNode, lookupNode, hk, ih]

theorem lookupNode_remove_ne (l : List (Int × Node)) (i j : Int) (h : j ≠ i) :
    lookupNode (removeNode l i) j = lookupNode l j := by
  have h' : i ≠ j := Ne.symm h
  induction l with
  | nil => simp [removeNode, lookupNode]
  | cons p rest ih =>
    obtain ⟨k, m⟩ := p
    by_cases hk : k = i
    · subst hk
      simp [removeNode, lookupNode, h', ih]
    · by_cases hkj : k = j <;> simp [removeNode, lookupNode, hk, hkj, ih, h]

theorem lookupNode_mem {l : List (Int × Node)} {i : Int} {n : Node}
    (h : lookupNode l i = some n) : (i, n) ∈ l := by
  induction l with
  | nil => simp [lookupNode] at h
  | cons p rest ih =>
    obtain ⟨k, m⟩ := p
    by_cases hk : k = i
    · subst hk
      simp [lookupNode] at h
      simp [h]
    · simp [lookupNode, hk] at h
      exact List.mem_cons_of_mem _ (ih h)

theorem mem_insertNode {l : List (Int × Node)} {i : Int} {n : Node} {p : Int × Node}
    (h : p ∈ insertNode l i n) : p = (i, n) ∨ p ∈ l := by
  induction l with
  | nil => simpa [insertNode] using h
  | cons q rest ih =>
    obtain ⟨k, m⟩ := q
    by_cases hk : k = i
    · rw [insertNode, if_pos hk] at h
      rcases List.mem_cons.mp h with h' | h'
      · exact Or.inl h'
      · exact Or.inr (List.mem_cons_of_mem _ h')
    · rw [insertNode, if_neg hk] at h
      rcases List.mem_cons.mp h with h' | h'
      · exact Or.inr (by simp [h'])
      · rcases ih h' with h'' | h''
        · exact Or.inl h''
        · exact Or.inr (List.mem_cons_of_mem _ h'')

theorem mem_removeNode {l : List (Int × Node)} {i : Int} {p : Int × Node}
    (h : p ∈ removeNode l i) : p ∈ l := by
  induction l with
  | nil => simp [removeNode] at h
  | cons q rest ih =>
    obtain ⟨k, m⟩ := q
    by_cases hk : k = i
    · rw [removeNode, if_pos hk] at h
      exact List.mem_cons_of_mem _ (ih h)
    · rw [removeNode, if_neg hk] at h
      rcases List.mem_cons.mp h with h' | h'
      · exact h' ▸ List.mem_cons_self _ _
      · exact List.mem_cons_of_mem _ (ih h')

namespace InMemoryKnowledgeStorage

theorem get_set_d (s : InMemoryKnowledgeStorage) (doc : Document) :
    (s.set (.d doc)).get doc.id = .d doc := by
  simp [set, get, Node.nodeId, lookupNode_insert_self]

theorem get_set_h (s : InMemoryKnowledgeStorage) (hd : Heading) :
    (s.set (.h hd)).get hd.id = .h hd := by
  simp [set, get, Node.nodeId, lookupNode_insert_self]

theorem get_set_ne (s : InMemoryKnowledgeStorage) (n : Node) (j : Int)
    (h : j ≠ n.nodeId) : (s.set n).get j = s.get j := by
  cases n with
  | d doc => simp [set, get, lookupNode_insert_ne _ _ _ _ h]
  | h hd => simp [set, get, lookupNode_insert_ne _ _ _ _ h]
  | e i =>
    simp only [Node.nodeId] at h
    simp [set, get, lookupNode_remove_ne _ _ _ h]

theorem set_id (s : InMemoryKnowledgeStorage) (n : Node) : (s.set n).id = s.id := by
  cases n <;> simp [set]

theorem setMany_nil (s : InMemoryKnowledgeStorage) : s.setMany [] = s := rfl

theorem setMany_cons (s : InMemoryKnowledgeStorage) (n : Node) (rest : List Node) :
    s.setMany (n :: rest) = (s.set n).setMany rest := rfl

theorem setMany_append (s : InMemoryKnowledgeStorage) (a b : List Node) :
    s.setMany (a ++ b) = (s.setMany a).setMany b := by
  simp [setMany, List.foldl_append]

theorem setMany_id (s : InMemoryKnowledgeStorage) (l : List Node) :
    (s.setMany l).id = s.id := by
  induction l generalizing s with
  | nil => rfl
  | cons n rest ih => rw [setMany_cons, ih, set_id]

theorem get_setMany_outside (s : InMemoryKnowledgeStorage) (l : List Node) (j : Int)
    (h : ∀ n ∈ l, n.nodeId ≠ j) : (s.setMany l).get j = s.get j := by
  induction l generalizing s with
  | nil => rfl
  | cons n rest ih =>
    rw [setMany_cons, ih _ (fun m hm => h m (List.mem_cons_of_mem _ hm)),
      get_set_ne _ _ _ (fun hj => h n (List.mem_cons_self _ _) hj.symm)]

end InMemoryKnowledgeStorage

/-! ## Well-formedness lemmas -/

theorem WF_lookup {s : InMemoryKnowledgeStorage} {i : Int} {n : Node}
    (hwf : WF s) (h : lookupNode s.storage i = some n) :
    n.nodeId = i ∧ i < s.id ∧ n.kind ≠ "e" :=
  hwf (i, n) (lookupNode_mem h)

theorem get_eq_of_ne_e {s : InMemoryKnowledgeStorage} {i : Int} {n : Node}
    (h : s.get i = n) (hne : n.kind ≠ "e") : lookupNode s.storage i = some n := by
  rw [InMemoryKnowledgeStorage.get] at h
  revert h
  cases hl : lookupNode s.storage i with
  | some m => intro h; exact congrArg some h
  | none => intro h; rw [← h] at hne; simp [Node.kind] at hne

theorem WF_get_d {s : InMemoryKnowledgeStorage} {i : Int} {doc : Document}
    (hwf : WF s) (h : s.get i = .d doc) : doc.id = i ∧ i < s.id := by
  have := WF_lookup hwf (get_eq_of_ne_e h (by simp [Node.kind]))
  exact ⟨this.1, this.2.1⟩

theorem WF_get_h {s : InMemoryKnowledgeStorage} {i : Int} {hd : Heading}
    (hwf : WF s) (h : s.get i = .h hd) : hd.id = i ∧ i < s.id := by
  have := WF_lookup hwf (get_eq_of_ne_e h (by simp [Node.kind]))
  exact ⟨this.1, this.2.1⟩

theorem WF_set {s : InMemoryKnowledgeStorage} (hwf : WF s) (n : Node)
    (hn : n.nodeId < s.id) : WF (s.set n) := by
  cases n with
  | e i =>
    intro p hp
    have hst : (s.set (Node.e i)).storage = removeNode s.storage i := rfl
    have hid : (s.set (Node.e i)).id = s.id := InMemoryKnowledgeStorage.set_id s _
    rw [hst] at hp
    rw [hid]
    exact hwf p (mem_removeNode hp)
  | d doc =>
    intro p hp
    have hst : (s.set (Node.d doc)).storage
        = insertNode s.storage (Node.d doc).nodeId (Node.d doc) := rfl
    have hid : (s.set (Node.d doc)).id = s.id := InMemoryKnowledgeStorage.set_id s _
    rw [hst] at hp
    rw [hid]
    rcases mem_insertNode hp with h | h
    · subst h
      exact ⟨rfl, hn, by simp [Node.kind]⟩
    · exact hwf p h
  | h hd =>
    intro p hp
    have hst : (s.set (Node.h hd)).storage
        = insertNode s.storage (Node.h hd).nodeId (Node.h hd) := rfl
    have hid : (s.set (Node.h hd)).id = s.id := InMemoryKnowledgeStorage.set_id s _
    rw [hst] at hp
    rw [hid]
    rcases mem_insertNode hp with h | h
    · subst h
      exact ⟨rfl, hn, by simp [Node.kind]⟩
    · exact hwf p h

theorem WF_setMany {s : InMemoryKnowledgeStorage} (hwf : WF s) (l : List Node)
    (hl : ∀ n ∈ l, n.nodeId < s.id) : WF (s.setMany l) := by
  induction l generalizing s with
  | nil => exact hwf
  | cons n rest ih =>
    rw [InMemoryKnowledgeStorage.setMany_cons]
    refine ih (WF_set hwf n (hl n (List.mem_cons_self _ _))) ?_
    intro m hm
    rw [InMemoryKnowledgeStorage.set_id]
    exact hl m (List.mem_cons_of_mem _ hm)

theorem WF_bumpId {l : List (Int × Node)} {c c' : Int} (hwf : WF ⟨l, c⟩)
    (h : c ≤ c') : WF ⟨l, c'⟩ := by
  intro p hp
  have := hwf p hp
  exact ⟨this.1, lt_of_lt_of_le this.2.1 h, this.2.2⟩

/-! ## C9: freshness of the id allocator -/

theorem allocInv_step (t : AllocTrace) (op : StorageOp) (h : AllocInv t) :
    AllocInv (stepOp t op) := by
  obtain ⟨hpair, hbound, hpos⟩ := h
  cases op with
  | genId =>
    refine ⟨?_, ?_, ?_⟩
    · simp only [stepOp, InMemoryKnowledgeStorage.generateId]
      rw [List.pairwise_append]
      exact ⟨hpair, List.pairwise_singleton _ _,
        fun a ha b hb => by
          simp only [List.mem_singleton] at hb
          subst hb
          exact (hbound a ha).2⟩
    · intro i hi
      simp only [stepOp, InMemoryKnowledgeStorage.generateId, List.mem_append,
        List.mem_singleton] at hi ⊢
      rcases hi with hi | hi
      · exact ⟨(hbound i hi).1, lt_trans (hbound i hi).2 (by omega)⟩
      · subst hi
        exact ⟨by omega, by omega⟩
    · simp only [stepOp, InMemoryKnowledgeStorage.generateId]
      omega
  | setNode n =>
    refine ⟨hpair, fun i hi => ⟨(hbound i hi).1, ?_⟩, ?_⟩ <;>
      simp only [stepOp, InMemoryKnowledgeStorage.set_id]
    · exact (hbound i hi).2
    · exact hpos
  | setManyNodes ns =>
    refine ⟨hpair, fun i hi => ⟨(hbound i hi).1, ?_⟩, ?_⟩ <;>
      simp only [stepOp, InMemoryKnowledgeStorage.setMany_id]
    · exact (hbound i hi).2
    · exact hpos

theorem allocInv_runOps (t : AllocTrace) (ops : List StorageOp) (h : AllocInv t) :
    AllocInv (runOps t ops) := by
  induction ops generalizing t with
  | nil => exact h
  | cons op rest ih => exact ih _ (allocInv_step t op h)

/-- Claim C9: from the engine-constructed store, after any sequence of
storage operations (including deletions), the next `generateId` call returns
an id strictly greater than every previously issued id, never returns ROOT
(`0`), and the issued ids contain no duplicate. -/
theorem generateId_fresh (ops : List StorageOp) :
    (∀ i ∈ (runOps ⟨engineInitStorage, []⟩ ops).issued,
      i < ((runOps ⟨engineInitStorage, []⟩ ops).store.generateId).1) ∧
    ((runOps ⟨engineInitStorage, []⟩ ops).store.generateId).1 ≠ 0 ∧
    (runOps ⟨engineInitStorage, []⟩ ops).issued.Nodup := by
  have hinv : AllocInv (runOps ⟨engineInitStorage, []⟩ ops) :=
    allocInv_runOps _ _ ⟨List.Pairwise.nil, by simp, by simp [engineInitStorage]⟩
  obtain ⟨hpair, hbound, hpos⟩ := hinv
  refine ⟨fun i hi => ?_, ?_, ?_⟩
  · simpa [InMemoryKnowledgeStorage.generateId] using (hbound i hi).2
  · simp only [InMemoryKnowledgeStorage.generateId]
    omega
  · exact hpair.imp ne_of_lt

/-- Witness for `generateId_fresh`: two allocations with a deletion between
them issue `[1, 2]`, and the next allocation would return `3`. -/
theorem generateId_fresh_witness :
    ((1 : Int) ∈ (runOps ⟨engineInitStorage, []⟩
        [.genId, .setNode (.e 1), .genId]).issued) ∧
    (1 : Int) < ((runOps ⟨engineInitStorage, []⟩
        [.genId, .setNode (.e 1), .genId]).store.generateId).1 ∧
    ((runOps ⟨engineInitStorage, []⟩
        [.genId, .setNode (.e 1), .genId]).store.generateId).1 ≠ 0 ∧
    (runOps ⟨engineInitStorage, []⟩
        [.genId, .setNode (.e 1), .genId]).issued.Nodup :=
  ⟨by decide,
   (generateId_fresh [.genId, .setNode (.e 1), .genId]).1 1 (by decide),
   (generateId_fresh [.genId, .setNode (.e 1), .genId]).2.1,
   (generateId_fresh [.genId, .setNode (.e 1), .genId]).2.2⟩

/-! ## C10: `getMany` positional alignment -/

/-- Claim C10: `getMany` returns one node per requested id, positionally
aligned with the input list: the i-th result is exactly `get` of the i-th id
(the stored node for a present id, an Empty-tagged node for an absent one). -/
theorem getMany_aligned (s : InMemoryKnowledgeStorage) (ids : List Int) :
    (s.getMany ids).length = ids.length ∧
    ∀ i : Nat, (s.getMany ids)[i]? = (ids[i]?).map s.get := by
  refine ⟨by simp [InMemoryKnowledgeStorage.getMany], fun i => ?_⟩
  simp [InMemoryKnowledgeStorage.getMany]

/-! ## C1: `find` and the `-1` routing answer -/

/-- Claim C1: `find` never passes `-1` to `storage.get`, and as soon as
the oracle's `selectDocument` answer makes the current id `-1` the loop
returns NotFound with no storage access at all. -/
theorem find_minus_one_notFound :
    (∀ s o round docId fuel, (-1 : Int) ∉ (findLoop s o round docId fuel).1) ∧
    (∀ s o round fuel,
      findLoop s o round (-1) (fuel + 1) = ([], FindOutcome.notFound)) ∧
    (∀ s o fuel, (-1 : Int) ∉ (find s o fuel).1) := by
  have h1 : ∀ fuel s o round docId, (-1 : Int) ∉ (findLoop s o round docId fuel).1 := by
    intro fuel
    induction fuel with
    | zero => intro s o round docId; simp [findLoop]
    | succ n ih =>
      intro s o round docId
      by_cases hneg : docId = -1
      · simp [findLoop, hneg]
      · have hne : ¬(-1 : Int) = docId := fun hh => hneg hh.symm
        cases hget : s.get docId with
        | e i => simp [findLoop, hneg, hget, hne]
        | d doc => simp [findLoop, hneg, hget, hne]
        | h hd =>
          simp only [findLoop, hneg, if_false, hget, List.mem_cons]
          push_neg
          exact ⟨hne, ih s o (round + 1) (o.selectDocument round)⟩
  exact ⟨fun s o round docId fuel => h1 fuel s o round docId,
    fun s o round fuel => by simp [findLoop],
    fun s o fuel => h1 fuel s o 0 ROOT_DOC_ID⟩

/-! ## C6: the bootstrap phase -/

/-- Claim C6: `update` on a store whose ROOT is absent stores the
oracle-produced content as a Document at id 0 with no `parentId`, returns
the fixed initialization message, and issues only the bootstrap round (no
locate/edit or rebalance phase). -/
theorem update_bootstrap (cfg : KnowledgeConfig) (s0 : InMemoryKnowledgeStorage)
    (o : Oracle) (q : String) (fuel : Nat)
    (hroot : (s0.get ROOT_DOC_ID).kind = "e") :
    update cfg s0 o q fuel =
      ([.bootstrap], .ok "Initialized the knowledge base"
        (s0.set (.d ⟨ROOT_DOC_ID, none, o.createRoot q⟩))) ∧
    (s0.set (.d ⟨ROOT_DOC_ID, none, o.createRoot q⟩)).get ROOT_DOC_ID =
      .d ⟨ROOT_DOC_ID, none, o.createRoot q⟩ := by
  cases hget : s0.get ROOT_DOC_ID with
  | e i =>
    exact ⟨by simp [update, hget],
      InMemoryKnowledgeStorage.get_set_d s0 ⟨ROOT_DOC_ID, none, o.createRoot q⟩⟩
  | d doc => rw [hget] at hroot; simp [Node.kind] at hroot
  | h hd => rw [hget] at hroot; simp [Node.kind] at hroot

/-- Witness for `update_bootstrap` on the engine-constructed empty store. -/
theorem update_bootstrap_witness :
    (engineInitStorage.get ROOT_DOC_ID).kind = "e" ∧
    (update defaultConfig engineInitStorage baseOracle "hi" 3 =
      ([.bootstrap], .ok "Initialized the knowledge base"
        (engineInitStorage.set (.d ⟨ROOT_DOC_ID, none, baseOracle.createRoot "hi"⟩))) ∧
    (engineInitStorage.set (.d ⟨ROOT_DOC_ID, none, baseOracle.createRoot "hi"⟩)).get
        ROOT_DOC_ID = .d ⟨ROOT_DOC_ID, none, baseOracle.createRoot "hi"⟩) :=
  ⟨rfl, update_bootstrap defaultConfig engineInitStorage baseOracle "hi" 3 rfl⟩

/-! ## C5: taxonomy violation during the locate traversal -/

/-- `_findLeaf` only throws the taxonomy-violation message. -/
theorem findLeaf_err_msg (s : InMemoryKnowledgeStorage) (o : Oracle) :
    ∀ fuel round docId parent r msg,
      findLeaf s o round docId parent fuel = (r, .err msg) →
      msg = "The model has selected a non-existent document." := by
  intro fuel
  induction fuel with
  | zero => intro round docId parent r msg h; simp [findLeaf] at h
  | succ n ih =>
    intro round docId parent r msg h
    rw [findLeaf] at h
    revert h
    cases s.get docId with
    | d doc => intro h; simp at h
    | e i => intro h; simp at h; exact h.2.symm
    | h hd => intro h; exact ih _ _ _ _ _ h

/-- Claim C5: when ROOT is present and the locate traversal fetches an
Empty node, `update` propagates the taxonomy-violation error to the caller
and issues only routing rounds — no edit, split or merge round runs. -/
theorem update_empty_traversal_throws (cfg : KnowledgeConfig)
    (s0 : InMemoryKnowledgeStorage) (o : Oracle) (q : String) (fuel : Nat)
    (r : Nat) (msg : String)
    (hroot : (s0.get ROOT_DOC_ID).kind ≠ "e")
    (hleaf : findLeaf s0 o 0 ROOT_DOC_ID none fuel = (r, .err msg)) :
    update cfg s0 o q fuel = (List.replicate r .route, .err msg) ∧
    msg = "The model has selected a non-existent document." ∧
    ∀ k ∈ (update cfg s0 o q fuel).1, k = RoundKind.route := by
  have hmsg : msg = "The model has selected a non-existent document." :=
    findLeaf_err_msg s0 o fuel 0 ROOT_DOC_ID none r msg hleaf
  cases hget : s0.get ROOT_DOC_ID with
  | e i => rw [hget] at hroot; simp [Node.kind] at hroot
  | d doc =>
    refine ⟨by simp [update, hget, hleaf], hmsg, fun k hk => ?_⟩
    rw [update, hget, hleaf] at hk
    exact List.eq_of_mem_replicate hk
  | h hd =>
    refine ⟨by simp [update, hget, hleaf], hmsg, fun k hk => ?_⟩
    rw [update, hget, hleaf] at hk
    exact List.eq_of_mem_replicate hk

/-- Witness for `update_empty_traversal_throws`: the oracle routes to the
absent id 5 below the ROOT Heading. -/
theorem update_empty_traversal_throws_witness :
    ((storeEmptyW.get ROOT_DOC_ID).kind ≠ "e") ∧
    (update defaultConfig storeEmptyW oracleEmptyW "q" 3 =
      (List.replicate 1 .route,
        .err "The model has selected a non-existent document.") ∧
    "The model has selected a non-existent document." =
      "The model has selected a non-existent document." ∧
    ∀ k ∈ (update defaultConfig storeEmptyW oracleEmptyW "q" 3).1,
      k = RoundKind.route) :=
  ⟨by decide, update_empty_traversal_throws defaultConfig storeEmptyW oracleEmptyW
    "q" 3 1 "The model has selected a non-existent document." (by decide) rfl⟩

/-! ## The locate traversal returns actual store nodes -/

theorem findLeaf_sound {s : InMemoryKnowledgeStorage} (o : Oracle) (hwf : WF s) :
    ∀ fuel round docId parent r doc par,
      (∀ ph, parent = some ph → s.get ph.id = .h ph ∧ ph.id < s.id) →
      findLeaf s o round docId parent fuel = (r, .ok doc par) →
      (s.get doc.id = .d doc ∧ doc.id < s.id) ∧
        ∀ ph, par = some ph → s.get ph.id = .h ph ∧ ph.id < s.id := by
  intro fuel
  induction fuel with
  | zero => intro _ _ _ _ _ _ _ h; simp [findLeaf] at h
  | succ n ih =>
    intro round docId parent r doc par hpar h
    rw [findLeaf] at h
    revert h
    cases hget : s.get docId with
    | e i => intro h; simp at h
    | d doc0 =>
      intro h
      simp at h
      obtain ⟨-, h1, h2⟩ := h
      subst h1
      subst h2
      have hd := WF_get_d hwf hget
      exact ⟨⟨by rw [hd.1]; exact hget, by rw [hd.1]; exact hd.2⟩, hpar⟩
    | h hd =>
      intro h
      have hh := WF_get_h hwf hget
      refine ih _ _ _ _ _ _ (fun ph hph => ?_) h
      injection hph with he
      subst he
      exact ⟨by rw [hh.1]; exact hget, by rw [hh.1]; exact hh.2⟩

/-! ## Characterization of the split handler -/

theorem splitFold_char (doc : Document) (parts : List (String × String)) :
    ∀ (s : InMemoryKnowledgeStorage) (refs : List HeadingRef) (docs : List Node),
      parts.foldl (splitStep doc) (s, refs, docs) =
        (⟨s.storage, s.id + (parts.length : Int)⟩,
          refs ++ splitRefs s.id parts, docs ++ splitDocs s.id doc.id parts) := by
  induction parts with
  | nil => intro s refs docs; simp [splitRefs, splitDocs]
  | cons p rest ih =>
    intro s refs docs
    rw [List.foldl_cons]
    have hstep : splitStep doc (s, refs, docs) p =
        ({ s with id := s.id + 1 }, refs ++ [⟨s.id, p.2⟩],
          docs ++ [Node.d ⟨s.id, some doc.id, p.1⟩]) := rfl
    rw [hstep, ih]
    refine congrArg₂ Prod.mk ?_ (congrArg₂ Prod.mk ?_ ?_)
    · show (⟨s.storage, s.id + 1 + (rest.length : Int)⟩ : InMemoryKnowledgeStorage) = _
      have : s.id + 1 + (rest.length : Int) = s.id + ((rest.length + 1 : Nat) : Int) := by
        push_cast
        ring
      rw [this]
      rfl
    · rw [List.append_assoc]
      rfl
    · rw [List.append_assoc]
      rfl

theorem splitHandler_char (s : InMemoryKnowledgeStorage) (doc : Document)
    (parts : List (String × String)) :
    splitHandler s doc parts =
      InMemoryKnowledgeStorage.setMany ⟨s.storage, s.id + (parts.length : Int)⟩
        (splitDocs s.id doc.id parts ++
          [Node.h ⟨doc.id, doc.parentId, splitRefs s.id parts⟩]) := by
  rw [splitHandler, splitFold_char]
  simp

theorem splitDocs_nodeId_bounds (pid : Int) :
    ∀ (parts : List (String × String)) (a : Int), ∀ n ∈ splitDocs a pid parts,
      a ≤ n.nodeId ∧ n.nodeId < a + (parts.length : Int) := by
  intro parts
  induction parts with
  | nil => intro a n hn; simp [splitDocs] at hn
  | cons p rest ih =>
    intro a n hn
    rw [splitDocs] at hn
    rcases List.mem_cons.mp hn with h | h
    · subst h
      constructor
      · exact le_refl _
      · simp only [Node.nodeId, List.length_cons]
        push_cast
        omega
    · have := ih (a + 1) n h
      constructor
      · omega
      · simp only [List.length_cons]
        push_cast at this ⊢
        omega

theorem splitDocs_parent (pid : Int) :
    ∀ (parts : List (String × String)) (a : Int), ∀ n ∈ splitDocs a pid parts,
      ∃ c, n = Node.d ⟨n.nodeId, some pid, c⟩ := by
  intro parts
  induction parts with
  | nil => intro a n hn; simp [splitDocs] at hn
  | cons p rest ih =>
    intro a n hn
    rw [splitDocs] at hn
    rcases List.mem_cons.mp hn with h | h
    · subst h
      exact ⟨p.1, rfl⟩
    · exact ih (a + 1) n h

theorem splitRefs_id_ge :
    ∀ (parts : List (String × String)) (a : Int), ∀ rf ∈ splitRefs a parts, a ≤ rf.id := by
  intro parts
  induction parts with
  | nil => intro a rf hrf; simp [splitRefs] at hrf
  | cons p rest ih =>
    intro a rf hrf
    rw [splitRefs] at hrf
    rcases List.mem_cons.mp hrf with h | h
    · subst h
      exact le_refl _
    · have := ih (a + 1) rf h
      omega

theorem map_update_ref_untouched (refs : List HeadingRef) (x : Int)
    (g : HeadingRef → HeadingRef) (h : ∀ r ∈ refs, r.id ≠ x) :
    refs.map (fun r => if r.id = x then g r else r) = refs := by
  induction refs with
  | nil => rfl
  | cons r rest ih =>
    rw [List.map_cons, if_neg (h r (List.mem_cons_self _ _)),
      ih (fun r' hr' => h r' (List.mem_cons_of_mem _ hr'))]

theorem WF_splitHandler {s : InMemoryKnowledgeStorage} (hwf : WF s)
    (doc : Document) (hdoc : doc.id < s.id) (parts : List (String × String)) :
    WF (splitHandler s doc parts) := by
  rw [splitHandler_char]
  have hmono : s.id ≤ s.id + (parts.length : Int) := by omega
  have hbase : WF ⟨s.storage, s.id + (parts.length : Int)⟩ := by
    refine WF_bumpId ?_ hmono
    intro p hp
    exact hwf p hp
  refine WF_setMany hbase _ ?_
  intro n hn
  have hbid : (⟨s.storage, s.id + (parts.length : Int)⟩ :
      InMemoryKnowledgeStorage).id = s.id + (parts.length : Int) := rfl
  rw [hbid]
  rcases List.mem_append.mp hn with h | h
  · exact (splitDocs_nodeId_bounds doc.id parts s.id n h).2
  · simp only [List.mem_singleton] at h
    subst h
    show doc.id < s.id + (parts.length : Int)
    omega

theorem splitHandler_id (s : InMemoryKnowledgeStorage) (doc : Document)
    (parts : List (String × String)) :
    (splitHandler s doc parts).id = s.id + (parts.length : Int) := by
  rw [splitHandler_char, InMemoryKnowledgeStorage.setMany_id]

/-! ## Lemmas about the rebalance phases -/

theorem splitPhase_rounds (cfg : KnowledgeConfig) (o : Oracle) (doc : Document)
    (s1 : InMemoryKnowledgeStorage) :
    (splitPhase cfg o doc s1).1 = [] ∨
      (splitPhase cfg o doc s1).1 = [RoundKind.split] := by
  cases hget : s1.get doc.id with
  | d ud =>
    by_cases hlen : ud.content.length > cfg.maxDocumentSizeChars
    · right; simp [splitPhase, hget, hlen]
    · left; simp [splitPhase, hget, hlen]
  | h hd => left; simp [splitPhase, hget]
  | e i => left; simp [splitPhase, hget]

theorem WF_splitPhase {cfg : KnowledgeConfig} {o : Oracle} {doc : Document}
    {s1 : InMemoryKnowledgeStorage} (hwf : WF s1) (hdoc : doc.id < s1.id) :
    WF (splitPhase cfg o doc s1).2 := by
  cases hget : s1.get doc.id with
  | d ud =>
    by_cases hlen : ud.content.length > cfg.maxDocumentSizeChars
    · simp only [splitPhase, hget, if_pos hlen]
      exact WF_splitHandler hwf doc hdoc _
    · simp only [splitPhase, hget, if_neg hlen]
      exact hwf
  | h hd => simpa only [splitPhase, hget] using hwf
  | e i => simpa only [splitPhase, hget] using hwf

theorem mergePhase_merge_iff (cfg : KnowledgeConfig) (o : Oracle)
    (parent : Option Heading) (s2 : InMemoryKnowledgeStorage) :
    RoundKind.merge ∈ (mergePhase cfg o parent s2).1 ↔
      ∃ ph, parent = some ph ∧
        2 * siblingsTotalSize s2 ph < cfg.maxDocumentSizeChars := by
  cases parent with
  | none => simp [mergePhase]
  | some ph =>
    by_cases hlt : 2 * siblingsTotalSize s2 ph < cfg.maxDocumentSizeChars <;>
      simp [mergePhase, hlt]

theorem mergePhase_store_of_cond (cfg : KnowledgeConfig) (o : Oracle) (ph : Heading)
    (s2 : InMemoryKnowledgeStorage)
    (h : 2 * siblingsTotalSize s2 ph < cfg.maxDocumentSizeChars) :
    (mergePhase cfg o (some ph) s2).2 =
      mergeHandler s2 ph (o.mergeDocuments (siblingContents s2 ph)).1
        (o.mergeDocuments (siblingContents s2 ph)).2 := by
  simp [mergePhase, h]

theorem mergeHandler_get_self {s : InMemoryKnowledgeStorage} (hwf : WF s)
    (ph : Heading) (c d : String) :
    (mergeHandler s ph c d).get ph.id = .d ⟨ph.id, ph.parentId, c⟩ := by
  rw [mergeHandler]
  cases hp : ph.parentId with
  | none => exact InMemoryKnowledgeStorage.get_set_d s ⟨ph.id, none, c⟩
  | some gpId =>
    dsimp only
    by_cases h0 : gpId = 0
    · rw [if_pos h0]
      exact InMemoryKnowledgeStorage.get_set_d s ⟨ph.id, some gpId, c⟩
    · rw [if_neg h0]
      cases hgp : (s.set (.d ⟨ph.id, some gpId, c⟩)).get gpId with
      | d doc => exact InMemoryKnowledgeStorage.get_set_d s ⟨ph.id, some gpId, c⟩
      | e i => exact InMemoryKnowledgeStorage.get_set_d s ⟨ph.id, some gpId, c⟩
      | h gp =>
        by_cases hid : gpId = ph.id
        · subst hid
          have hD := InMemoryKnowledgeStorage.get_set_d s ⟨ph.id, some ph.id, c⟩
          exact absurd (hD.symm.trans hgp) (by simp)
        · have hgp' : s.get gpId = .h gp := by
            have hs := InMemoryKnowledgeStorage.get_set_ne s
              (.d ⟨ph.id, some gpId, c⟩) gpId hid
            rw [← hs]
            exact hgp
          have hgid : gp.id = gpId := (WF_get_h hwf hgp').1
          refine Eq.trans (InMemoryKnowledgeStorage.get_set_ne _ _ _ ?_)
            (InMemoryKnowledgeStorage.get_set_d s ⟨ph.id, some gpId, c⟩)
          show ph.id ≠ gp.id
          rw [hgid]
          exact Ne.symm hid

/-- Rounds decomposition of `update` on the non-bootstrap path. -/
theorem update_phases (cfg : KnowledgeConfig) (s0 : InMemoryKnowledgeStorage)
    (o : Oracle) (q : String) (fuel : Nat) (r : Nat) (doc : Document)
    (parent : Option Heading)
    (hroot : (s0.get ROOT_DOC_ID).kind ≠ "e")
    (hleaf : findLeaf s0 o 0 ROOT_DOC_ID none fuel = (r, .ok doc parent)) :
    update cfg s0 o q fuel =
      (List.replicate r .route ++ [.edit] ++
        (splitPhase cfg o doc
          (s0.set (.d { doc with content := (o.updateDocument doc.content q).1 }))).1 ++
        (mergePhase cfg o parent
          (splitPhase cfg o doc
            (s0.set (.d { doc with content := (o.updateDocument doc.content q).1 }))).2).1,
      .ok (o.updateDocument doc.content q).2
        (mergePhase cfg o parent
          (splitPhase cfg o doc
            (s0.set (.d { doc with content := (o.updateDocument doc.content q).1 }))).2).2) := by
  cases hget : s0.get ROOT_DOC_ID with
  | e i => rw [hget] at hroot; simp [Node.kind] at hroot
  | d doc0 => simp [update, hget, hleaf]
  | h hd => simp [update, hget, hleaf]

/-! ## C3: the merge trigger and its effect -/

/-- Claim C3: on the non-bootstrap path, a merge round is issued iff the
edited Document had a parent Heading and the sibling size sum at merge-check
time (Document children by content length, Heading children as zero, no
grandchildren) is strictly below `maxDocumentSizeChars / 2`; and on receipt
the parent Heading's id holds a Document with the oracle's merged content
and the parent's `parentId`. -/
theorem update_merge_iff (cfg : KnowledgeConfig) (s0 : InMemoryKnowledgeStorage)
    (o : Oracle) (q : String) (fuel : Nat) (r : Nat) (doc : Document)
    (parent : Option Heading)
    (hwf : WF s0)
    (hroot : (s0.get ROOT_DOC_ID).kind ≠ "e")
    (hleaf : findLeaf s0 o 0 ROOT_DOC_ID none fuel = (r, .ok doc parent)) :
    (RoundKind.merge ∈ (update cfg s0 o q fuel).1 ↔
      ∃ ph, parent = some ph ∧
        2 * siblingsTotalSize
          (splitPhase cfg o doc
            (s0.set (.d { doc with content := (o.updateDocument doc.content q).1 }))).2
          ph < cfg.maxDocumentSizeChars) ∧
    ∀ ph, parent = some ph →
      2 * siblingsTotalSize
          (splitPhase cfg o doc
            (s0.set (.d { doc with content := (o.updateDocument doc.content q).1 }))).2
          ph < cfg.maxDocumentSizeChars →
      ∀ sd st, (update cfg s0 o q fuel).2 = .ok sd st →
        st.get ph.id = .d ⟨ph.id, ph.parentId,
          (o.mergeDocuments (siblingContents
            (splitPhase cfg o doc
              (s0.set (.d { doc with content := (o.updateDocument doc.content q).1 }))).2
            ph)).1⟩ := by
  have hup := update_phases cfg s0 o q fuel r doc parent hroot hleaf
  have hdoc := ((findLeaf_sound o hwf fuel 0 ROOT_DOC_ID none r doc parent
    (by intro ph hph; cases hph) hleaf)).1
  have hwf1 : WF (s0.set (.d { doc with content := (o.updateDocument doc.content q).1 })) :=
    WF_set hwf _ hdoc.2
  have hid1 : (s0.set
      (.d { doc with content := (o.updateDocument doc.content q).1 })).id = s0.id :=
    InMemoryKnowledgeStorage.set_id _ _
  have hwf2 : WF (splitPhase cfg o doc
      (s0.set (.d { doc with content := (o.updateDocument doc.content q).1 }))).2 :=
    WF_splitPhase hwf1 (by rw [hid1]; exact hdoc.2)
  constructor
  · rw [hup]
    rcases splitPhase_rounds cfg o doc
        (s0.set (.d { doc with content := (o.updateDocument doc.content q).1 })) with
      hsp | hsp <;>
      simp [hsp, List.mem_append, List.mem_replicate, mergePhase_merge_iff]
  · intro ph hph hcond sd st hst
    subst hph
    rw [hup] at hst
    simp only [UpdateOutcome.ok.injEq] at hst
    rw [← hst.2, mergePhase_store_of_cond cfg o ph _ hcond]
    exact mergeHandler_get_self hwf2 ph _ _

/-- Witness for `update_merge_iff`: the concrete merge scenario — editing
Document 2 under Heading 1 leaves siblings of total size 4 < 100 / 2, the
merge round fires, and Heading 1's id becomes the merged Document. -/
theorem update_merge_iff_witness :
    WF storeMergeW ∧
    ((RoundKind.merge ∈ (update cfgMergeW storeMergeW oracleMergeW "q" 5).1 ↔
      ∃ ph, (some (⟨1, some 0, [⟨2, "c"⟩, ⟨3, "d"⟩]⟩ : Heading)) = some ph ∧
        2 * siblingsTotalSize
          (splitPhase cfgMergeW oracleMergeW ⟨2, some 1, "aa"⟩
            (storeMergeW.set (.d { (⟨2, some 1, "aa"⟩ : Document) with
              content := (oracleMergeW.updateDocument "aa" "q").1 }))).2
          ph < cfgMergeW.maxDocumentSizeChars) ∧
    ∀ ph, (some (⟨1, some 0, [⟨2, "c"⟩, ⟨3, "d"⟩]⟩ : Heading)) = some ph →
      2 * siblingsTotalSize
          (splitPhase cfgMergeW oracleMergeW ⟨2, some 1, "aa"⟩
            (storeMergeW.set (.d { (⟨2, some 1, "aa"⟩ : Document) with
              content := (oracleMergeW.updateDocument "aa" "q").1 }))).2
          ph < cfgMergeW.maxDocumentSizeChars →
      ∀ sd st, (update cfgMergeW storeMergeW oracleMergeW "q" 5).2 = .ok sd st →
        st.get ph.id = .d ⟨ph.id, ph.parentId,
          (oracleMergeW.mergeDocuments (siblingContents
            (splitPhase cfgMergeW oracleMergeW ⟨2, some 1, "aa"⟩
              (storeMergeW.set (.d { (⟨2, some 1, "aa"⟩ : Document) with
                content := (oracleMergeW.updateDocument "aa" "q").1 }))).2
            ph)).1⟩) :=
  ⟨by unfold WF; decide, update_merge_iff cfgMergeW storeMergeW oracleMergeW "q" 5 2
    ⟨2, some 1, "aa"⟩ (some ⟨1, some 0, [⟨2, "c"⟩, ⟨3, "d"⟩]⟩)
    (by unfold WF; decide) (by decide) rfl⟩

/-! ## C4: the grandparent update after a merge

The source guards the grandparent step with `if (parentHeading.parentId)`;
in JavaScript the id `0` (ROOT) is falsy, so when the collapsed parent's
grandparent is the ROOT Heading the matching child ref's `shortDescription`
is NOT replaced.  The scenario below runs the merge whose grandparent is
ROOT and shows ROOT's refs untouched, contradicting the claim. -/

/-- Claim C4, evaluation of the code at the failing input: in the concrete merge scenario, Heading 1
(child of the ROOT Heading 0) is collapsed by a merge whose new summary is
`"NEWSHORT"`, yet ROOT's child ref for id 1 still carries its old
description `"a"` — the grandparent update is skipped because ROOT's id `0`
is falsy in `if (parentHeading.parentId)`. -/
theorem merge_skips_root_grandparent :
    RoundKind.merge ∈ (update cfgMergeW storeMergeW oracleMergeW "q" 5).1 ∧
    ((update cfgMergeW storeMergeW oracleMergeW "q" 5).2.storeQ.map
        fun st => st.get 0) =
      some (Node.h ⟨0, none, [⟨1, "a"⟩, ⟨4, "b"⟩]⟩) ∧
    (oracleMergeW.mergeDocuments ["cc", "bb"]).2 = "NEWSHORT" ∧
    "a" ≠ "NEWSHORT" := by
  refine ⟨by decide, by decide, rfl, by decide⟩

/-! ## Further storage lemmas for the split claim -/

theorem get_out_of_range {s : InMemoryKnowledgeStorage} (hwf : WF s) {j : Int}
    (h : s.id ≤ j) : s.get j = .e j := by
  rw [InMemoryKnowledgeStorage.get]
  cases hl : lookupNode s.storage j with
  | none => rfl
  | some n => exact absurd (WF_lookup hwf hl).2.1 (by omega)

theorem get_setMany_splitDocs (pid : Int) :
    ∀ (parts : List (String × String)) (a : Int) (s : InMemoryKnowledgeStorage)
      (i : Nat) (c d : String), parts[i]? = some (c, d) →
      (s.setMany (splitDocs a pid parts)).get (a + (i : Int)) =
        .d ⟨a + (i : Int), some pid, c⟩ := by
  intro parts
  induction parts with
  | nil => intro a s i c d h; simp at h
  | cons p rest ih =>
    intro a s i c d h
    rw [splitDocs, InMemoryKnowledgeStorage.setMany_cons]
    cases i with
    | zero =>
      have hp : p = (c, d) := by simpa using h
      have hout : ∀ n ∈ splitDocs (a + 1) pid rest, n.nodeId ≠ a + ((0 : Nat) : Int) := by
        intro n hn
        have := (splitDocs_nodeId_bounds pid rest (a + 1) n hn).1
        simp only [Nat.cast_zero, add_zero]
        omega
      rw [InMemoryKnowledgeStorage.get_setMany_outside _ _ _ hout]
      have h0 : a + ((0 : Nat) : Int) = a := by simp
      rw [h0, hp]
      exact InMemoryKnowledgeStorage.get_set_d s ⟨a, some pid, c⟩
    | succ i' =>
      have h' : rest[i']? = some (c, d) := by simpa using h
      have harith : a + ((i' + 1 : Nat) : Int) = (a + 1) + (i' : Int) := by
        push_cast
        ring
      rw [harith]
      exact ih (a + 1) (s.set (.d ⟨a, some pid, p.1⟩)) i' c d h'

/-! ## Preservation through the merge handler -/

theorem mergeHandler_get_d {s : InMemoryKnowledgeStorage} (hwf : WF s)
    (ph : Heading) (c d : String) (j : Int) (dj : Document)
    (hne : j ≠ ph.id) (hj : s.get j = .d dj) :
    (mergeHandler s ph c d).get j = .d dj := by
  rw [mergeHandler]
  cases hp : ph.parentId with
  | none =>
    rw [InMemoryKnowledgeStorage.get_set_ne s (.d ⟨ph.id, none, c⟩) j hne]
    exact hj
  | some gpId =>
    dsimp only
    by_cases h0 : gpId = 0
    · rw [if_pos h0,
        InMemoryKnowledgeStorage.get_set_ne s (.d ⟨ph.id, some gpId, c⟩) j hne]
      exact hj
    · rw [if_neg h0]
      cases hgp : (s.set (.d ⟨ph.id, some gpId, c⟩)).get gpId with
      | d doc2 =>
        dsimp only
        rw [InMemoryKnowledgeStorage.get_set_ne s (.d ⟨ph.id, some gpId, c⟩) j hne]
        exact hj
      | e i =>
        dsimp only
        rw [InMemoryKnowledgeStorage.get_set_ne s (.d ⟨ph.id, some gpId, c⟩) j hne]
        exact hj
      | h gp =>
        dsimp only
        by_cases hid : gpId = ph.id
        · subst hid
          have hD := InMemoryKnowledgeStorage.get_set_d s ⟨ph.id, some ph.id, c⟩
          exact absurd (hD.symm.trans hgp) (by simp)
        · have hgp' : s.get gpId = .h gp := by
            have hs := InMemoryKnowledgeStorage.get_set_ne s
              (.d ⟨ph.id, some gpId, c⟩) gpId hid
            rw [← hs]
            exact hgp
          have hgid : gp.id = gpId := (WF_get_h hwf hgp').1
          by_cases hgj : gpId = j
          · rw [hgj] at hgp'
            rw [hj] at hgp'
            exact absurd hgp' (by simp)
          · refine Eq.trans (InMemoryKnowledgeStorage.get_set_ne _ _ _ ?_)
              (Eq.trans (InMemoryKnowledgeStorage.get_set_ne s
                (.d ⟨ph.id, some gpId, c⟩) j hne) hj)
            show j ≠ gp.id
            rw [hgid]
            exact Ne.symm hgj

theorem mergeHandler_get_h {s : InMemoryKnowledgeStorage} (hwf : WF s)
    (ph : Heading) (c d : String) (j : Int) (hdj : Heading)
    (hne : j ≠ ph.id) (hj : s.get j = .h hdj)
    (hrefs : ∀ rf ∈ hdj.refs, rf.id ≠ ph.id) :
    (mergeHandler s ph c d).get j = .h hdj := by
  rw [mergeHandler]
  cases hp : ph.parentId with
  | none =>
    rw [InMemoryKnowledgeStorage.get_set_ne s (.d ⟨ph.id, none, c⟩) j hne]
    exact hj
  | some gpId =>
    dsimp only
    by_cases h0 : gpId = 0
    · rw [if_pos h0,
        InMemoryKnowledgeStorage.get_set_ne s (.d ⟨ph.id, some gpId, c⟩) j hne]
      exact hj
    · rw [if_neg h0]
      cases hgp : (s.set (.d ⟨ph.id, some gpId, c⟩)).get gpId with
      | d doc2 =>
        dsimp only
        rw [InMemoryKnowledgeStorage.get_set_ne s (.d ⟨ph.id, some gpId, c⟩) j hne]
        exact hj
      | e i =>
        dsimp only
        rw [InMemoryKnowledgeStorage.get_set_ne s (.d ⟨ph.id, some gpId, c⟩) j hne]
        exact hj
      | h gp =>
        dsimp only
        by_cases hid : gpId = ph.id
        · subst hid
          have hD := InMemoryKnowledgeStorage.get_set_d s ⟨ph.id, some ph.id, c⟩
          exact absurd (hD.symm.trans hgp) (by simp)
        · have hgp' : s.get gpId = .h gp := by
            have hs := InMemoryKnowledgeStorage.get_set_ne s
              (.d ⟨ph.id, some gpId, c⟩) gpId hid
            rw [← hs]
            exact hgp
          have hgid : gp.id = gpId := (WF_get_h hwf hgp').1
          by_cases hgj : gpId = j
          · have hgpj : s.get j = .h gp := hgj ▸ hgp'
            rw [hj] at hgpj
            have hgpeq : hdj = gp := by
              injection hgpj with hh
            subst hgpeq
            rw [map_update_ref_untouched hdj.refs ph.id _ hrefs]
            have hidj : hdj.id = j := by rw [hgid]; exact hgj
            rw [← hidj]
            exact InMemoryKnowledgeStorage.get_set_h _ hdj
          · refine Eq.trans (InMemoryKnowledgeStorage.get_set_ne _ _ _ ?_)
              (Eq.trans (InMemoryKnowledgeStorage.get_set_ne s
                (.d ⟨ph.id, some gpId, c⟩) j hne) hj)
            show j ≠ gp.id
            rw [hgid]
            exact Ne.symm hgj

theorem mergePhase_rounds (cfg : KnowledgeConfig) (o : Oracle)
    (parent : Option Heading) (s2 : InMemoryKnowledgeStorage) :
    (mergePhase cfg o parent s2).1 = [] ∨
      (mergePhase cfg o parent s2).1 = [RoundKind.merge] := by
  cases parent with
  | none => left; rfl
  | some ph =>
    by_cases hlt : 2 * siblingsTotalSize s2 ph < cfg.maxDocumentSizeChars
    · right; simp [mergePhase, hlt]
    · left; simp [mergePhase, hlt]

theorem mergePhase_get_d (cfg : KnowledgeConfig) (o : Oracle)
    (parent : Option Heading) {s2 : InMemoryKnowledgeStorage} (hwf : WF s2)
    (j : Int) (dj : Document) (hj : s2.get j = .d dj)
    (hne : ∀ ph, parent = some ph → j ≠ ph.id) :
    (mergePhase cfg o parent s2).2.get j = .d dj := by
  cases parent with
  | none => exact hj
  | some ph =>
    by_cases hlt : 2 * siblingsTotalSize s2 ph < cfg.maxDocumentSizeChars
    · rw [mergePhase_store_of_cond cfg o ph s2 hlt]
      exact mergeHandler_get_d hwf ph _ _ j dj (hne ph rfl) hj
    · simp only [mergePhase, if_neg hlt]
      exact hj

theorem mergePhase_get_h (cfg : KnowledgeConfig) (o : Oracle)
    (parent : Option Heading) {s2 : InMemoryKnowledgeStorage} (hwf : WF s2)
    (j : Int) (hdj : Heading) (hj : s2.get j = .h hdj)
    (hne : ∀ ph, parent = some ph → j ≠ ph.id)
    (hrefs : ∀ ph, parent = some ph → ∀ rf ∈ hdj.refs, rf.id ≠ ph.id) :
    (mergePhase cfg o parent s2).2.get j = .h hdj := by
  cases parent with
  | none => exact hj
  | some ph =>
    by_cases hlt : 2 * siblingsTotalSize s2 ph < cfg.maxDocumentSizeChars
    · rw [mergePhase_store_of_cond cfg o ph s2 hlt]
      exact mergeHandler_get_h hwf ph _ _ j hdj (hne ph rfl) hj (hrefs ph rfl)
    · simp only [mergePhase, if_neg hlt]
      exact hj

/-! ## C2: the split trigger and its effect -/

/-- Claim C2: on the non-bootstrap path, when the edited Document's new
content strictly exceeds `maxDocumentSizeChars`, `update` issues the split
round, allocates one fresh id per oracle partition (ids `s0.id + i`, which
are absent from the pre-state), persists each partition as a Document
parented to the original node's id, and overwrites the original node's id in
place with a Heading carrying exactly those fresh ids with the oracle's
short descriptions and the original Document's `parentId`; at or below the
threshold no split round is issued. -/
theorem update_split_spec (cfg : KnowledgeConfig) (s0 : InMemoryKnowledgeStorage)
    (o : Oracle) (q : String) (fuel : Nat) (r : Nat) (doc : Document)
    (parent : Option Heading)
    (hwf : WF s0)
    (hroot : (s0.get ROOT_DOC_ID).kind ≠ "e")
    (hleaf : findLeaf s0 o 0 ROOT_DOC_ID none fuel = (r, .ok doc parent)) :
    ((o.updateDocument doc.content q).1.length > cfg.maxDocumentSizeChars →
      RoundKind.split ∈ (update cfg s0 o q fuel).1 ∧
      (∀ i : Nat,
        i < (o.splitDocument (o.updateDocument doc.content q).1).length →
        s0.get (s0.id + (i : Int)) = .e (s0.id + (i : Int))) ∧
      ∀ sd st, (update cfg s0 o q fuel).2 = .ok sd st →
        sd = (o.updateDocument doc.content q).2 ∧
        st.get doc.id = .h ⟨doc.id, doc.parentId,
          splitRefs s0.id (o.splitDocument (o.updateDocument doc.content q).1)⟩ ∧
        ∀ (i : Nat) (c dd : String),
          (o.splitDocument (o.updateDocument doc.content q).1)[i]? = some (c, dd) →
          st.get (s0.id + (i : Int)) =
            .d ⟨s0.id + (i : Int), some doc.id, c⟩) ∧
    (¬ (o.updateDocument doc.content q).1.length > cfg.maxDocumentSizeChars →
      RoundKind.split ∉ (update cfg s0 o q fuel).1) := by
  have hup := update_phases cfg s0 o q fuel r doc parent hroot hleaf
  have hsound := findLeaf_sound o hwf fuel 0 ROOT_DOC_ID none r doc parent
    (by intro ph hph; cases hph) hleaf
  obtain ⟨⟨hdget, hdlt⟩, hparent⟩ := hsound
  set nc := (o.updateDocument doc.content q).1 with hncdef
  set parts := o.splitDocument nc with hpartsdef
  set s1 := s0.set (.d { doc with content := nc }) with hs1def
  have hs1id : s1.id = s0.id := InMemoryKnowledgeStorage.set_id _ _
  have hwf1 : WF s1 := WF_set hwf _ hdlt
  have hs1get : s1.get doc.id = .d { doc with content := nc } :=
    InMemoryKnowledgeStorage.get_set_d s0 { doc with content := nc }
  have hne_doc : ∀ ph : Heading, parent = some ph → doc.id ≠ ph.id := by
    intro ph hph heq
    have hp := hparent ph hph
    rw [heq] at hdget
    exact absurd (hdget.symm.trans hp.1) (by simp)
  constructor
  · intro hbig
    have hsp : splitPhase cfg o doc s1 = ([.split], splitHandler s1 doc parts) := by
      simp only [splitPhase, hs1get]
      rw [if_pos hbig]
    have hink : splitHandler s1 doc parts =
        (InMemoryKnowledgeStorage.setMany ⟨s1.storage, s1.id + (parts.length : Int)⟩
          (splitDocs s1.id doc.id parts)).set
          (.h ⟨doc.id, doc.parentId, splitRefs s1.id parts⟩) := by
      rw [splitHandler_char, InMemoryKnowledgeStorage.setMany_append]
      rfl
    have hwfS : WF (splitHandler s1 doc parts) :=
      WF_splitHandler hwf1 doc (by rw [hs1id]; exact hdlt) parts
    have hget_doc_S : (splitHandler s1 doc parts).get doc.id =
        .h ⟨doc.id, doc.parentId, splitRefs s1.id parts⟩ := by
      rw [hink]
      exact InMemoryKnowledgeStorage.get_set_h _ _
    have hget_fresh_S : ∀ (i : Nat) (c dd : String), parts[i]? = some (c, dd) →
        (splitHandler s1 doc parts).get (s1.id + (i : Int)) =
          .d ⟨s1.id + (i : Int), some doc.id, c⟩ := by
      intro i c dd hpi
      rw [hink]
      have hne : s1.id + (i : Int) ≠
          (Node.h ⟨doc.id, doc.parentId, splitRefs s1.id parts⟩).nodeId := by
        show s1.id + (i : Int) ≠ doc.id
        rw [hs1id]
        omega
      rw [InMemoryKnowledgeStorage.get_set_ne _ _ _ hne]
      exact get_setMany_splitDocs doc.id parts s1.id _ i c dd hpi
    refine ⟨?_, ?_, ?_⟩
    · rw [hup, hsp]
      simp
    · intro i hi
      apply get_out_of_range hwf
      omega
    · intro sd st hst
      rw [hup] at hst
      simp only [UpdateOutcome.ok.injEq] at hst
      obtain ⟨hsd, hstore⟩ := hst
      refine ⟨hsd.symm, ?_, ?_⟩
      · rw [← hstore, ← hs1id, hsp]
        refine mergePhase_get_h cfg o parent hwfS doc.id _ hget_doc_S hne_doc ?_
        intro ph hph rf hrf heq
        have h1 := splitRefs_id_ge parts s1.id rf hrf
        have h2 := (hparent ph hph).2
        omega
      · intro i c dd hpi
        rw [← hstore, ← hs1id, hsp]
        refine mergePhase_get_d cfg o parent hwfS (s1.id + (i : Int)) _
          (hget_fresh_S i c dd hpi) ?_
        intro ph hph heq
        have h2 := (hparent ph hph).2
        omega
  · intro hnb
    have hsp0 : splitPhase cfg o doc s1 = ([], s1) := by
      simp only [splitPhase, hs1get]
      rw [if_neg hnb]
    rw [hup, hsp0]
    rcases mergePhase_rounds cfg o parent s1 with hm | hm <;>
      simp [hm, List.mem_append, List.mem_replicate]

/-- Witness for `update_split_spec`: editing the ROOT Document to 8
characters with `maxDocumentSizeChars = 5` splits it into Documents 1 and 2
and turns id 0 into a Heading referencing them. -/
theorem update_split_spec_witness :
    WF storeSplitW ∧
    (oracleSplitW.updateDocument "hello" "q").1.length >
      cfgSplitW.maxDocumentSizeChars ∧
    (RoundKind.split ∈ (update cfgSplitW storeSplitW oracleSplitW "q" 5).1 ∧
      (∀ i : Nat,
        i < (oracleSplitW.splitDocument
          (oracleSplitW.updateDocument "hello" "q").1).length →
        storeSplitW.get (storeSplitW.id + (i : Int)) =
          .e (storeSplitW.id + (i : Int))) ∧
      ∀ sd st, (update cfgSplitW storeSplitW oracleSplitW "q" 5).2 = .ok sd st →
        sd = (oracleSplitW.updateDocument "hello" "q").2 ∧
        st.get (0 : Int) = .h ⟨0, none, splitRefs storeSplitW.id
          (oracleSplitW.splitDocument (oracleSplitW.updateDocument "hello" "q").1)⟩ ∧
        ∀ (i : Nat) (c dd : String),
          (oracleSplitW.splitDocument
            (oracleSplitW.updateDocument "hello" "q").1)[i]? = some (c, dd) →
          st.get (storeSplitW.id + (i : Int)) =
            .d ⟨storeSplitW.id + (i : Int), some 0, c⟩) :=
  ⟨by unfold WF; decide, by decide,
    (update_split_spec cfgSplitW storeSplitW oracleSplitW "q" 5 0
      ⟨0, none, "hello"⟩ none (by unfold WF; decide) (by decide) rfl).1
      (by decide)⟩

/-! ## Lemmas about the oracle gateway -/

theorem upsert_ne_nil (l : List (String × String)) (k v : String) :
    upsert l k v ≠ [] := by
  cases l with
  | nil => simp [upsert]
  | cons p rest =>
    obtain ⟨k0, v0⟩ := p
    by_cases h : k0 = k <;> simp [upsert, h]

theorem lookupTool_singleton {α : Type} (name : String) (spec : ToolSpec α)
    (nm : String) (t : ToolSpec α) (h : lookupTool [(name, spec)] nm = some t) :
    nm = name := by
  by_cases hn : name = nm
  · exact hn.symm
  · rw [lookupTool, if_neg hn, lookupTool] at h
    exact absurd h (by simp)

theorem processCalls_res_nil {α : Type} (tools : List (String × ToolSpec α)) :
    ∀ (calls : List ToolCall) (fired : List (String × α))
      (res : List (String × String)),
      (processCalls tools calls fired res).2 = [] →
      res = [] ∧
        (processCalls tools calls fired res).1.length =
          fired.length + calls.length := by
  intro calls
  induction calls with
  | nil => intro fired res h; exact ⟨h, by simp [processCalls]⟩
  | cons tc rest ih =>
    intro fired res h
    cases tc with
    | custom nm =>
      rw [processCalls] at h
      exact absurd (ih _ _ h).1 (upsert_ne_nil _ _ _)
    | function fn =>
      rw [processCalls] at h ⊢
      revert h
      cases lookupTool tools fn.name with
      | none =>
        intro h
        dsimp only at h
        exact absurd (ih _ _ h).1 (upsert_ne_nil _ _ _)
      | some t =>
        intro h
        dsimp only at h ⊢
        revert h
        cases t.parseArg fn.arguments with
        | error e =>
          intro h
          dsimp only at h
          exact absurd (ih _ _ h).1 (upsert_ne_nil _ _ _)
        | ok a =>
          intro h
          dsimp only at h ⊢
          revert h
          cases t.run a with
          | some e =>
            intro h
            dsimp only at h
            exact absurd (ih _ _ h).1 (upsert_ne_nil _ _ _)
          | none =>
            intro h
            dsimp only at h ⊢
            refine ⟨(ih _ _ h).1, ?_⟩
            have := (ih _ _ h).2
            rw [this]
            simp
            omega

theorem processCalls_fired_names {α : Type} (tools : List (String × ToolSpec α)) :
    ∀ (calls : List ToolCall) (fired : List (String × α))
      (res : List (String × String)) (p : String × α),
      p ∈ (processCalls tools calls fired res).1 →
      p ∈ fired ∨ ∃ t, lookupTool tools p.1 = some t := by
  intro calls
  induction calls with
  | nil => intro fired res p hp; exact Or.inl hp
  | cons tc rest ih =>
    intro fired res p hp
    cases tc with
    | custom nm =>
      rw [processCalls] at hp
      exact ih _ _ p hp
    | function fn =>
      rw [processCalls] at hp
      revert hp
      cases hlf : lookupTool tools fn.name with
      | none =>
        intro hp
        dsimp only at hp
        exact ih _ _ p hp
      | some t =>
        intro hp
        dsimp only at hp
        revert hp
        cases t.parseArg fn.arguments with
        | error e =>
          intro hp
          dsimp only at hp
          exact ih _ _ p hp
        | ok a =>
          intro hp
          dsimp only at hp
          revert hp
          cases t.run a with
          | some e =>
            intro hp
            dsimp only at hp
            rcases ih _ _ p hp with hin | hex
            · rcases List.mem_append.mp hin with hin' | hin'
              · exact Or.inl hin'
              · simp only [List.mem_singleton] at hin'
                subst hin'
                exact Or.inr ⟨t, hlf⟩
            · exact Or.inr hex
          | none =>
            intro hp
            dsimp only at hp
            rcases ih _ _ p hp with hin | hex
            · rcases List.mem_append.mp hin with hin' | hin'
              · exact Or.inl hin'
              · simp only [List.mem_singleton] at hin'
                subst hin'
                exact Or.inr ⟨t, hlf⟩
            · exact Or.inr hex

/-- Decomposition of a successful verification: the response has a first
choice whose `tool_calls` is present, every call processed without error,
and the fired log is exactly what `processCalls` produced. -/
theorem verify_ok_decomp {α : Type} (tools : List (String × ToolSpec α))
    (resp : Response) (h : (verifyAndCallHandlers tools resp).2 = none) :
    ∃ ch rest calls, resp.choices = ch :: rest ∧
      ch.message.tool_calls = some calls ∧
      (processCalls tools calls [] []).2 = [] ∧
      (verifyAndCallHandlers tools resp).1 = (processCalls tools calls [] []).1 := by
  obtain ⟨choices⟩ := resp
  cases choices with
  | nil => simp [verifyAndCallHandlers] at h
  | cons ch rest =>
    obtain ⟨msg⟩ := ch
    obtain ⟨tc⟩ := msg
    cases tc with
    | none => simp [verifyAndCallHandlers] at h
    | some calls =>
      cases hpr : (processCalls tools calls [] []).2 with
      | cons e es => simp [verifyAndCallHandlers, hpr] at h
      | nil =>
        exact ⟨⟨⟨some calls⟩⟩, rest, calls, rfl, rfl, hpr,
          by simp [verifyAndCallHandlers, hpr]⟩

theorem respondRetryLoop_ok_shape {α : Type} (client : Nat → Response)
    (tools : List (String × ToolSpec α)) :
    ∀ (rem callIdx callsSoFar : Nat) (firedSoFar : List (String × α)) (u : Unit),
      (respondRetryLoop client tools rem callIdx callsSoFar firedSoFar).result =
        .ok u →
      ∃ resp,
        (respondRetryLoop client tools rem callIdx callsSoFar
          firedSoFar).accepted = some resp ∧
        (verifyAndCallHandlers tools resp).2 = none := by
  intro rem
  induction rem with
  | zero =>
    intro ci cs f u h
    rw [respondRetryLoop] at h ⊢
    revert h
    cases hvr : (verifyAndCallHandlers tools (client ci)).2 with
    | none =>
      intro h
      exact ⟨client ci, rfl, hvr⟩
    | some msg =>
      intro h
      dsimp only at h
      exact absurd h (by simp)
  | succ rem ih =>
    intro ci cs f u h
    rw [respondRetryLoop] at h ⊢
    revert h
    cases hvr : (verifyAndCallHandlers tools (client ci)).2 with
    | none =>
      intro h
      exact ⟨client ci, rfl, hvr⟩
    | some msg =>
      intro h
      dsimp only at h ⊢
      exact ih _ _ _ u h

/-! ## C7: what a `respond` round guarantees about its single tool -/

/-- Claim C7, amended: under the `throw` and `retryAll` policies, a normal
return of `respond` means some response passed verification: every fired
handler invocation was for the supplied tool with a schema-accepted
argument, and if the accepted response listed at least one tool call then
at least one invocation fired (only an empty `tool_calls` array can return
normally with the tool unfired).  Under the default — no strategy, i.e.
ignore — `respond` returns normally even when verification failed and the
tool never fired. -/
theorem respond_fires_or_raises {α : Type} (strategy : Option ResolutionStrategy)
    (client : Nat → Response) (name : String) (spec : ToolSpec α) :
    ((strategy = some .throw ∨ ∃ n, strategy = some (.retryAll n)) →
      ∀ u : Unit, (respond strategy client [(name, spec)]).result = .ok u →
      ∃ resp, (respond strategy client [(name, spec)]).accepted = some resp ∧
        (verifyAndCallHandlers [(name, spec)] resp).2 = none ∧
        (∀ p ∈ (verifyAndCallHandlers [(name, spec)] resp).1, p.1 = name) ∧
        (∀ calls, firstToolCalls resp = some calls → calls ≠ [] →
          (verifyAndCallHandlers [(name, spec)] resp).1 ≠ [])) ∧
    ((strategy = none ∨ strategy = some .ignore) →
      (respond strategy client [(name, spec)]).result = .ok ()) := by
  have hfacts : ∀ resp : Response,
      (verifyAndCallHandlers [(name, spec)] resp).2 = none →
      (∀ p ∈ (verifyAndCallHandlers [(name, spec)] resp).1, p.1 = name) ∧
      (∀ calls, firstToolCalls resp = some calls → calls ≠ [] →
        (verifyAndCallHandlers [(name, spec)] resp).1 ≠ []) := by
    intro resp hnone
    obtain ⟨ch, rest, calls, hch, htc, hpr, hfst⟩ :=
      verify_ok_decomp [(name, spec)] resp hnone
    constructor
    · intro p hp
      rw [hfst] at hp
      rcases processCalls_fired_names [(name, spec)] calls [] [] p hp with
        hin | ⟨t, ht⟩
      · exact absurd hin (List.not_mem_nil p)
      · exact lookupTool_singleton name spec p.1 t ht
    · intro calls' hcalls' hne
      have hceq : calls' = calls := by
        simp only [firstToolCalls, hch] at hcalls'
        rw [htc] at hcalls'
        injection hcalls' with hh
        exact hh.symm
      subst hceq
      rw [hfst]
      have hlen := (processCalls_res_nil [(name, spec)] calls' [] [] hpr).2
      intro hnil
      rw [hnil] at hlen
      simp at hlen
      exact hne (List.eq_nil_of_length_eq_zero hlen.symm)
  constructor
  · intro hstrat u hok
    rw [respond] at hok ⊢
    revert hok
    cases hvr : (verifyAndCallHandlers [(name, spec)] (client 0)).2 with
    | none =>
      intro hok
      exact ⟨client 0, rfl, hvr, (hfacts _ hvr).1, (hfacts _ hvr).2⟩
    | some msg =>
      intro hok
      dsimp only at hok ⊢
      rcases hstrat with hthrow | ⟨n, hretry⟩
      · subst hthrow
        dsimp only at hok
        exact absurd hok (by simp)
      · subst hretry
        dsimp only at hok ⊢
        obtain ⟨resp, hacc, hnone⟩ :=
          respondRetryLoop_ok_shape client [(name, spec)] n 1 1 _ u hok
        exact ⟨resp, hacc, hnone, (hfacts resp hnone).1, (hfacts resp hnone).2⟩
  · intro hstrat
    rw [respond]
    cases hvr : (verifyAndCallHandlers [(name, spec)] (client 0)).2 with
    | none => rfl
    | some msg =>
      rcases hstrat with h | h <;> subst h <;> rfl

/-- Claim C7, counterexample: under the DEFAULT resolution policy (no strategy
configured — resolved as ignore-and-log), a round whose response contains
no tool call at all returns normally with the expected tool unfired, so the
claim "respond never returns normally with the expected tool unfired, under
every configured resolution policy including the default" is false. -/
theorem respond_default_returns_with_tool_unfired :
    (respond none clientNoCalls [("selectDocument", toolSpecEcho)]).result =
      .ok () ∧
    (respond none clientNoCalls [("selectDocument", toolSpecEcho)]).fired = [] ∧
    (respond none clientNoCalls [("selectDocument", toolSpecEcho)]).calls = 1 :=
  ⟨rfl, rfl, rfl⟩

/-- Witness for `respond_fires_or_raises` under the `throw` policy with a
well-behaved scripted model. -/
theorem respond_fires_or_raises_witness :
    (some ResolutionStrategy.throw = some .throw ∨
      ∃ n, some ResolutionStrategy.throw = some (.retryAll n)) ∧
    (respond (some .throw) clientGood
      [("selectDocument", toolSpecEcho)]).result = .ok () ∧
    ∃ resp, (respond (some .throw) clientGood
        [("selectDocument", toolSpecEcho)]).accepted = some resp ∧
      (verifyAndCallHandlers [("selectDocument", toolSpecEcho)] resp).2 = none ∧
      (∀ p ∈ (verifyAndCallHandlers [("selectDocument", toolSpecEcho)] resp).1,
        p.1 = "selectDocument") ∧
      (∀ calls, firstToolCalls resp = some calls → calls ≠ [] →
        (verifyAndCallHandlers [("selectDocument", toolSpecEcho)] resp).1 ≠ []) :=
  ⟨Or.inl rfl, rfl,
    (respond_fires_or_raises (some .throw) clientGood "selectDocument"
      toolSpecEcho).1 (Or.inl rfl) () rfl⟩

/-! ## C8: the `retryAll` bound -/

/-- Claim C8, evaluation of the code at the failing input: under `retryAll` a failing round is retried
`maxRetries + 1` times, one more than the claim's `maxRetries`: with
`maxRetries = 0` the agent issues 2 chat-completion calls (initial plus one
retry) before raising, and with `maxRetries = 1` it issues 3. -/
theorem respond_retryAll_extra_call :
    (respond (some (.retryAll 0)) clientNoCalls [("test", toolSpecEcho)]).calls
      = 2 ∧
    (respond (some (.retryAll 0)) clientNoCalls [("test", toolSpecEcho)]).result
      ≠ .ok () ∧
    (respond (some (.retryAll 1)) clientNoCalls [("test", toolSpecEcho)]).calls
      = 3 ∧
    (respond (some (.retryAll 1)) clientNoCalls [("test", toolSpecEcho)]).result
      ≠ .ok () := by
  exact ⟨rfl, fun h => Except.noConfusion h, rfl, fun h => Except.noConfusion h⟩

end AIF
